import Mathlib

/-!
Verification of the affinity-propagation core in `affprop/temp.py` against its
natural-language specification.  Real numbers are modelled by `ℚ` (the source
works with exact arithmetic semantics of the written formulas; `cdist(·,·,
"euclidean") ** 2` is the squared Euclidean distance).  Matrices are total
functions `Fin n → Fin n → ℚ`.
-/

namespace Affprop

/-- An `n × n` rational matrix, the shallow embedding of the numpy 2-D arrays. -/
abbrev Mat (n : ℕ) := Fin n → Fin n → ℚ

/-- Model of `np.min` of a list of values (numpy folds `min` over all entries; the
`[]` case never arises in the source, `0` is an arbitrary default). -/
def npMin : List ℚ → ℚ
  | [] => 0
  | x :: xs => xs.foldl min x

/-- Model of `np.max` of a list of values (numpy folds `max` over all entries; the
`[]` case never arises in the source, `0` is an arbitrary default). -/
def npMax : List ℚ → ℚ
  | [] => 0
  | x :: xs => xs.foldl max x

/-- Insertion into a sorted list, used to model numpy's ascending sort. -/
def insertQ (a : ℚ) : List ℚ → List ℚ
  | [] => [a]
  | b :: l => if a ≤ b then a :: b :: l else b :: insertQ a l

/-- Ascending insertion sort, modelling the sort `np.median` performs. -/
def sortQ : List ℚ → List ℚ
  | [] => []
  | a :: l => insertQ a (sortQ l)

/-- Model of `np.median`: sort the flattened values; middle element for odd length,
mean of the two middle elements for even length. -/
def npMedian (l : List ℚ) : ℚ :=
  let s := sortQ l
  if l.length % 2 = 1 then s.getD (l.length / 2) 0
  else (s.getD (l.length / 2 - 1) 0 + s.getD (l.length / 2) 0) / 2

/-- Entry `(i,k)` of `-cdist(mydata, mydata, "euclidean") ** 2`: the negated
squared Euclidean distance between points `i` and `k`. -/
def negSq (n d : ℕ) (pts : Fin n → Fin d → ℚ) (i k : Fin n) : ℚ :=
  -(∑ j : Fin d, (pts i j - pts k j) ^ 2)

/-- Row-major flattening of an `n × n` matrix, as numpy reductions see it. -/
def flattenMat (n : ℕ) (M : Mat n) : List ℚ :=
  (List.finRange n).flatMap (fun i => (List.finRange n).map (fun k => M i k))

/-- Function `calc_similarity_matrix` from `temp.py` (lines 7-17): the negated squared
Euclidean distance matrix, whose preference `pref` is `np.min` of the whole
matrix for `num_cluster_pref = 1` and `np.median` of the whole matrix
otherwise, written onto the diagonal by `np.fill_diagonal`. -/
def calc_similarity_matrix (n d : ℕ) (pts : Fin n → Fin d → ℚ)
    (num_cluster_pref : ℤ) : Mat n :=
  let pref :=
    if num_cluster_pref = 1 then npMin (flattenMat n (negSq n d pts))
    else npMedian (flattenMat n (negSq n d pts))
  fun i k => if i = k then pref else negSq n d pts i k

/-- The list of off-diagonal entries of the negated squared-distance matrix,
written from the spec's words "the off-diagonal values" (row-major order). -/
def offDiagonalEntries (n d : ℕ) (pts : Fin n → Fin d → ℚ) : List ℚ :=
  (List.finRange n).flatMap
    (fun i => ((List.finRange n).filter (fun k => k ≠ i)).map
      (fun k => negSq n d pts i k))

/-! ### Facts about the fold-based `np.min` / `np.max` reductions -/

theorem foldl_min_le_init (xs : List ℚ) (a : ℚ) : xs.foldl min a ≤ a := by
  induction xs generalizing a with
  | nil => exact le_refl a
  | cons x xs ih =>
      exact le_trans (ih (min a x)) (min_le_left a x)

theorem foldl_min_le_mem (xs : List ℚ) (a x : ℚ) (hx : x ∈ xs) :
    xs.foldl min a ≤ x := by
  induction xs generalizing a with
  | nil => cases hx
  | cons y ys ih =>
      rcases List.mem_cons.mp hx with h | h
      · subst h
        exact le_trans (foldl_min_le_init ys (min a x)) (min_le_right a x)
      · exact ih (min a y) h

theorem foldl_min_mem (xs : List ℚ) (a : ℚ) :
    xs.foldl min a = a ∨ xs.foldl min a ∈ xs := by
  induction xs generalizing a with
  | nil => exact Or.inl rfl
  | cons y ys ih =>
      rcases ih (min a y) with h | h
      · rcases min_choice a y with hm | hm
        · exact Or.inl (by rw [List.foldl_cons, h, hm])
        · exact Or.inr (by rw [List.foldl_cons, h, hm]; exact List.mem_cons_self y ys)
      · exact Or.inr (List.mem_cons_of_mem y h)

theorem npMin_le (l : List ℚ) (x : ℚ) (hx : x ∈ l) : npMin l ≤ x := by
  cases l with
  | nil => cases hx
  | cons y ys =>
      rcases List.mem_cons.mp hx with h | h
      · rw [h]; exact foldl_min_le_init ys y
      · exact foldl_min_le_mem ys y x h

theorem npMin_mem (l : List ℚ) (hl : l ≠ []) : npMin l ∈ l := by
  cases l with
  | nil => exact absurd rfl hl
  | cons y ys =>
      show ys.foldl min y ∈ y :: ys
      rcases foldl_min_mem ys y with h | h
      · rw [h]; exact List.mem_cons_self y ys
      · exact List.mem_cons_of_mem y h

theorem foldl_max_init_le (xs : List ℚ) (a : ℚ) : a ≤ xs.foldl max a := by
  induction xs generalizing a with
  | nil => exact le_refl a
  | cons x xs ih =>
      exact le_trans (le_max_left a x) (ih (max a x))

theorem foldl_max_mem_le (xs : List ℚ) (a x : ℚ) (hx : x ∈ xs) :
    x ≤ xs.foldl max a := by
  induction xs generalizing a with
  | nil => cases hx
  | cons y ys ih =>
      rcases List.mem_cons.mp hx with h | h
      · subst h
        exact le_trans (le_max_right a x) (foldl_max_init_le ys (max a x))
      · exact ih (max a y) h

theorem foldl_max_mem (xs : List ℚ) (a : ℚ) :
    xs.foldl max a = a ∨ xs.foldl max a ∈ xs := by
  induction xs generalizing a with
  | nil => exact Or.inl rfl
  | cons y ys ih =>
      rcases ih (max a y) with h | h
      · rcases max_choice a y with hm | hm
        · exact Or.inl (by rw [List.foldl_cons, h, hm])
        · exact Or.inr (by rw [List.foldl_cons, h, hm]; exact List.mem_cons_self y ys)
      · exact Or.inr (List.mem_cons_of_mem y h)

theorem npMax_le (l : List ℚ) (x : ℚ) (hx : x ∈ l) : x ≤ npMax l := by
  cases l with
  | nil => cases hx
  | cons y ys =>
      rcases List.mem_cons.mp hx with h | h
      · rw [h]; exact foldl_max_init_le ys y
      · exact foldl_max_mem_le ys y x h

theorem npMax_mem (l : List ℚ) (hl : l ≠ []) : npMax l ∈ l := by
  cases l with
  | nil => exact absurd rfl hl
  | cons y ys =>
      show ys.foldl max y ∈ y :: ys
      rcases foldl_max_mem ys y with h | h
      · rw [h]; exact List.mem_cons_self y ys
      · exact List.mem_cons_of_mem y h

/-! ### Facts about the flattened similarity data -/

theorem mem_flattenMat (n : ℕ) (M : Mat n) (x : ℚ) :
    x ∈ flattenMat n M ↔ ∃ i k, x = M i k := by
  simp only [flattenMat, List.mem_flatMap, List.mem_map, List.mem_finRange]
  constructor
  · rintro ⟨i, -, k, -, rfl⟩; exact ⟨i, k, rfl⟩
  · rintro ⟨i, k, rfl⟩; exact ⟨i, trivial, k, trivial, rfl⟩

theorem negSq_nonpos (n d : ℕ) (pts : Fin n → Fin d → ℚ) (i k : Fin n) :
    negSq n d pts i k ≤ 0 := by
  have h : (0 : ℚ) ≤ ∑ j : Fin d, (pts i j - pts k j) ^ 2 :=
    Finset.sum_nonneg fun j _ => sq_nonneg _
  simpa [negSq] using h

theorem flattenMat_ne_nil (n d : ℕ) (pts : Fin (n+1) → Fin d → ℚ) :
    flattenMat (n+1) (negSq (n+1) d pts) ≠ [] := by
  intro h
  have : negSq (n+1) d pts 0 0 ∈ flattenMat (n+1) (negSq (n+1) d pts) :=
    (mem_flattenMat _ _ _).mpr ⟨0, 0, rfl⟩
  rw [h] at this
  cases this

theorem negSq_self (n d : ℕ) (pts : Fin n → Fin d → ℚ) (i : Fin n) :
    negSq n d pts i i = 0 := by
  simp [negSq]

/-! ### Iteration-0 message matrices -/

/-- Function `init_r_array` from `temp.py` (lines 19-26):
`s_matrix - s_matrix.max(axis=1)[:, None]`, the similarity matrix minus the
broadcast row maximum. -/
def init_r_array (n : ℕ) (s_matrix : Mat n) : Mat n :=
  fun i k => s_matrix i k - npMax (List.ofFn (s_matrix i))

/-- Iteration 0 of the availability history: `np.zeros(...)` (temp.py lines
102-104) leaves `a_array[0]` identically zero. -/
def a_array_0 (n : ℕ) : Mat n := fun _ _ => 0

theorem ofFn_row_ne_nil (n : ℕ) (f : Fin (n+1) → ℚ) : List.ofFn f ≠ [] := by
  intro h
  have := congrArg List.length h
  simp at this

/-- C5: the iteration-0 responsibility matrix is the similarity matrix minus
the row maximum taken over all columns (including the diagonal one), and the
iteration-0 availability matrix is identically zero. -/
theorem C5_initialization (n : ℕ) (S : Mat (n+1)) (i k : Fin (n+1)) :
    (∃ k0 : Fin (n+1), init_r_array (n+1) S i k = S i k - S i k0
        ∧ ∀ k' : Fin (n+1), S i k' ≤ S i k0)
    ∧ a_array_0 (n+1) i k = 0 := by
  refine ⟨?_, rfl⟩
  obtain ⟨k0, hk0⟩ := Set.mem_range.mp ((List.mem_ofFn _ _).mp
    (npMax_mem (List.ofFn (S i)) (ofFn_row_ne_nil n (S i))))
  refine ⟨k0, ?_, ?_⟩
  · rw [init_r_array, ← hk0]
  · intro k'
    rw [hk0]
    exact npMax_le _ _ ((List.mem_ofFn _ _).mpr (Set.mem_range.mpr ⟨k', rfl⟩))

/-- C2 (amended): off-diagonal entries of the similarity matrix are negated
squared Euclidean distances; for `num_cluster_pref = 1` every diagonal entry
is the minimum of the off-diagonal values; for `num_cluster_pref = 2` every
diagonal entry is `np.median` of ALL `n²` matrix entries, the zero diagonal
of the distance matrix included. -/
theorem C2_similarity (m d : ℕ) (pts : Fin (m+2) → Fin d → ℚ) (mode : ℤ) :
    (∀ i k : Fin (m+2), i ≠ k →
        calc_similarity_matrix (m+2) d pts mode i k
          = -(∑ j : Fin d, (pts i j - pts k j) ^ 2))
    ∧ (∀ i : Fin (m+2),
        (∃ i0 k0 : Fin (m+2), i0 ≠ k0 ∧
            calc_similarity_matrix (m+2) d pts 1 i i = negSq (m+2) d pts i0 k0)
        ∧ (∀ i0 k0 : Fin (m+2), i0 ≠ k0 →
            calc_similarity_matrix (m+2) d pts 1 i i ≤ negSq (m+2) d pts i0 k0))
    ∧ (∀ i : Fin (m+2),
        calc_similarity_matrix (m+2) d pts 2 i i
          = npMedian (flattenMat (m+2) (negSq (m+2) d pts))) := by
  have hdiag1 : ∀ i : Fin (m+2), calc_similarity_matrix (m+2) d pts 1 i i
      = npMin (flattenMat (m+2) (negSq (m+2) d pts)) := by
    intro i
    simp [calc_similarity_matrix]
  refine ⟨?_, ?_, ?_⟩
  · intro i k hik
    simp [calc_similarity_matrix, if_neg hik, negSq]
  · intro i
    constructor
    · obtain ⟨i0, k0, he⟩ := (mem_flattenMat _ _ _).mp
        (npMin_mem _ (flattenMat_ne_nil (m+1) d pts))
      by_cases h0 : i0 = k0
      · subst h0
        have hz : (0 : Fin (m+2)) ≠ 1 := Fin.zero_ne_one
        have h1 : npMin (flattenMat (m+2) (negSq (m+2) d pts))
            ≤ negSq (m+2) d pts 0 1 :=
          npMin_le _ _ ((mem_flattenMat _ _ _).mpr ⟨0, 1, rfl⟩)
        have h2 : negSq (m+2) d pts 0 1 ≤ 0 := negSq_nonpos _ _ _ _ _
        have hp0 : npMin (flattenMat (m+2) (negSq (m+2) d pts)) = 0 := by
          rw [he, negSq_self]
        refine ⟨0, 1, hz, ?_⟩
        rw [hdiag1 i, hp0]
        linarith
      · exact ⟨i0, k0, h0, by rw [hdiag1 i, he]⟩
    · intro i0 k0 h0
      rw [hdiag1 i]
      exact npMin_le _ _ ((mem_flattenMat _ _ _).mpr ⟨i0, k0, rfl⟩)
  · intro i
    simp [calc_similarity_matrix]

/-! ### The availability update -/

/-- Function `a_array_update` from `temp.py` (lines 28-54).  `temp_vec` starts as ones,
is zeroed at index `k`, at index `i` (only in the `i ≠ k` branch), and wherever
the previous responsibility column is negative; `a_ik_sum` is the dot product
of that mask with column `k` of the previous responsibilities.  For `i ≠ k`
the update term is `np.min` of `[r(k,k) + a_ik_sum, 0]`; for `i = k` it is
`a_ik_sum` itself.  The stored value is the damped convex combination with the
previous availability. -/
def a_array_update (n : ℕ) (r_prev a_prev : Mat n) (damp_c : ℚ) : Mat n :=
  fun i k =>
    if i ≠ k then
      damp_c * min (r_prev k k
          + ∑ j : Fin n, r_prev j k * (if j = k ∨ j = i ∨ r_prev j k < 0 then 0 else 1)) 0
        + (1 - damp_c) * a_prev i k
    else
      damp_c * (∑ j : Fin n, r_prev j k * (if j = k ∨ r_prev j k < 0 then 0 else 1))
        + (1 - damp_c) * a_prev i k

theorem masked_dot_eq (n : ℕ) (g : Fin n → ℚ) (s : Finset (Fin n)) :
    ∑ j : Fin n, g j * (if j ∈ s ∨ g j < 0 then 0 else 1)
      = ∑ j ∈ Finset.univ \ s, max 0 (g j) := by
  have hpt : ∀ j : Fin n, g j * (if j ∈ s ∨ g j < 0 then 0 else 1)
      = if j ∈ s then 0 else max 0 (g j) := by
    intro j
    by_cases hs : j ∈ s
    · simp [hs]
    · by_cases hg : g j < 0
      · simp [hs, hg, max_eq_left (le_of_lt hg)]
      · simp [hs, hg, max_eq_right (not_lt.mp hg)]
  rw [Finset.sum_congr rfl (fun j _ => hpt j)]
  rw [Finset.sdiff_eq_filter]
  rw [Finset.sum_filter]
  apply Finset.sum_congr rfl
  intro j _
  by_cases hs : j ∈ s <;> simp [hs]

/-- C3: the availability update of `temp.py` computes, for `i ≠ k`, the damped
version of `min(0, r(k,k) + Σ over j outside {i,k} of max(0, r(j,k)))`, and for
`i = k` the damped version of the unclipped `Σ over j ≠ k of max(0, r(j,k))`. -/
theorem C3_availability (n : ℕ) (r_prev a_prev : Mat n) (damp_c : ℚ)
    (hd : 0 < damp_c) (hd1 : damp_c ≤ 1) (i k : Fin n) :
    (i ≠ k → a_array_update n r_prev a_prev damp_c i k
        = damp_c * min 0 (r_prev k k
            + ∑ j ∈ Finset.univ \ {i, k}, max 0 (r_prev j k))
          + (1 - damp_c) * a_prev i k)
    ∧ (i = k → a_array_update n r_prev a_prev damp_c i k
        = damp_c * (∑ j ∈ Finset.univ \ {k}, max 0 (r_prev j k))
          + (1 - damp_c) * a_prev i k) := by
  constructor
  · intro hik
    have hcond : ∀ j : Fin n,
        (j = k ∨ j = i ∨ r_prev j k < 0)
          ↔ (j ∈ ({i, k} : Finset (Fin n)) ∨ r_prev j k < 0) := by
      intro j
      simp only [Finset.mem_insert, Finset.mem_singleton]
      tauto
    have hsum : ∑ j : Fin n, r_prev j k * (if j = k ∨ j = i ∨ r_prev j k < 0 then 0 else 1)
        = ∑ j ∈ Finset.univ \ {i, k}, max 0 (r_prev j k) := by
      rw [← masked_dot_eq n (fun j => r_prev j k) {i, k}]
      apply Finset.sum_congr rfl
      intro j _
      congr 1
      exact if_congr (hcond j) rfl rfl
    simp only [a_array_update, if_pos hik]
    rw [hsum, min_comm]
  · intro hik
    subst hik
    have hcond : ∀ j : Fin n,
        (j = i ∨ r_prev j i < 0)
          ↔ (j ∈ ({i} : Finset (Fin n)) ∨ r_prev j i < 0) := by
      intro j
      simp only [Finset.mem_singleton]
    have hsum : ∑ j : Fin n, r_prev j i * (if j = i ∨ r_prev j i < 0 then 0 else 1)
        = ∑ j ∈ Finset.univ \ {i}, max 0 (r_prev j i) := by
      rw [← masked_dot_eq n (fun j => r_prev j i) {i}]
      apply Finset.sum_congr rfl
      intro j _
      congr 1
      exact if_congr (hcond j) rfl rfl
    simp only [a_array_update, ne_eq, not_true_eq_false, if_neg, ite_false]
    rw [hsum]

/-! ### The responsibility update -/

/-- Row maximum over all columns except `k`, modelling
`np.amax(s_a_array_sum[:, rng != i], axis=1)` from `temp.py` (lines 60-63). -/
def rowMaxExcl (n : ℕ) (M : Mat n) (i k : Fin n) : ℚ :=
  npMax (((List.finRange n).filter (fun c => c ≠ k)).map (fun c => M i c))

/-- Function `r_array_update` from `temp.py` (lines 56-66): with
`s_a_array_sum = a_array[niter] + s_matrix`, the update term is
`s_matrix - row_max` where `row_max[i, k]` is the maximum of
`s_a_array_sum[i, :]` with column `k` excluded; the stored value is the damped
convex combination with the previous responsibility. -/
def r_array_update (n : ℕ) (a_t s_matrix r_prev : Mat n) (damp_c : ℚ) : Mat n :=
  fun i k =>
    damp_c * (s_matrix i k
        - rowMaxExcl n (fun i' k' => a_t i' k' + s_matrix i' k') i k)
      + (1 - damp_c) * r_prev i k

theorem mem_rowMaxExcl_list (n : ℕ) (M : Mat n) (i k : Fin n) (x : ℚ) :
    x ∈ ((List.finRange n).filter (fun c => c ≠ k)).map (fun c => M i c)
      ↔ ∃ c : Fin n, c ≠ k ∧ x = M i c := by
  simp only [List.mem_map, List.mem_filter, List.mem_finRange, true_and,
    decide_eq_true_eq]
  constructor
  · rintro ⟨c, hc, rfl⟩; exact ⟨c, hc, rfl⟩
  · rintro ⟨c, hc, rfl⟩; exact ⟨c, hc, rfl⟩

theorem rowMaxExcl_list_ne_nil (n : ℕ) (M : Mat (n+2)) (i k : Fin (n+2)) :
    ((List.finRange (n+2)).filter (fun c => c ≠ k)).map (fun c => M i c) ≠ [] := by
  intro h
  have hmem : M i (if k = 0 then 1 else 0)
      ∈ ((List.finRange (n+2)).filter (fun c => c ≠ k)).map (fun c => M i c) := by
    apply (mem_rowMaxExcl_list (n+2) M i k _).mpr
    refine ⟨if k = 0 then 1 else 0, ?_, rfl⟩
    by_cases hk : k = 0
    · simp only [if_pos hk, hk]
      exact Fin.zero_ne_one.symm
    · simp only [if_neg hk]
      exact fun h0 => hk h0.symm
  rw [h] at hmem
  cases hmem

/-- C4: the responsibility update of `temp.py` computes the damped version of
`S[i,k] - max over competing candidates of (S[i,k'] + A[i,k'])`, where the
maximum runs over every column except `k` and uses the just-computed
availability matrix. -/
theorem C4_responsibility (n : ℕ) (a_t s_matrix r_prev : Mat (n+2))
    (damp_c : ℚ) (hd : 0 < damp_c) (hd1 : damp_c ≤ 1) (i k : Fin (n+2)) :
    ∃ rm, r_array_update (n+2) a_t s_matrix r_prev damp_c i k
        = damp_c * (s_matrix i k - rm) + (1 - damp_c) * r_prev i k
      ∧ (∃ k' : Fin (n+2), k' ≠ k ∧ rm = s_matrix i k' + a_t i k')
      ∧ (∀ k' : Fin (n+2), k' ≠ k → s_matrix i k' + a_t i k' ≤ rm) := by
  have hSA : ∀ i' k' : Fin (n+2),
      (fun a b => a_t a b + s_matrix a b) i' k' = s_matrix i' k' + a_t i' k' :=
    fun i' k' => add_comm _ _
  refine ⟨rowMaxExcl (n+2) (fun a b => a_t a b + s_matrix a b) i k,
    rfl, ?_, ?_⟩
  · obtain ⟨c, hc, he⟩ :=
      (mem_rowMaxExcl_list (n+2) (fun a b => a_t a b + s_matrix a b) i k
        (npMax (((List.finRange (n+2)).filter (fun c => c ≠ k)).map
          (fun c => a_t i c + s_matrix i c)))).mp
        (npMax_mem _ (rowMaxExcl_list_ne_nil n
          (fun a b => a_t a b + s_matrix a b) i k))
    exact ⟨c, hc, he.trans (hSA i c)⟩
  · intro k' hk'
    have h := npMax_le
      (((List.finRange (n+2)).filter (fun c => c ≠ k)).map
        (fun c => a_t i c + s_matrix i c))
      (a_t i k' + s_matrix i k')
      ((mem_rowMaxExcl_list (n+2) (fun a b => a_t a b + s_matrix a b) i k
        (a_t i k' + s_matrix i k')).mpr ⟨k', hk', rfl⟩)
    rw [add_comm]
    exact h

/-! ### The per-row argmax producing the cluster assignment -/

/-- One step of `np.argmax`: the running best index is replaced only when a
strictly greater value appears, so the first occurrence of the maximum wins. -/
def argmaxStep (n : ℕ) (f : Fin n → ℚ) : Fin n → Fin n → Fin n :=
  fun best j => if f best < f j then j else best

/-- Model of `np.argmax` over one row (`np.argmax(r_s_sum_array, axis=1)` in `temp.py`
line 132): scan the indices in order keeping the first maximal one. -/
def npArgmax (n : ℕ) (f : Fin (n+1) → ℚ) : Fin (n+1) :=
  (List.finRange (n+1)).foldl (argmaxStep (n+1) f) 0

theorem argmax_foldl_spec (n : ℕ) (f : Fin n → ℚ) (l : List (Fin n)) :
    ∀ b : Fin n, l.Pairwise (· < ·) → (∀ j ∈ l, b < j) →
      (f b ≤ f (l.foldl (argmaxStep n f) b))
      ∧ (∀ j ∈ l, f j ≤ f (l.foldl (argmaxStep n f) b))
      ∧ (f (l.foldl (argmaxStep n f) b) = f b → l.foldl (argmaxStep n f) b = b)
      ∧ (∀ j ∈ l, f (l.foldl (argmaxStep n f) b) = f j
          → l.foldl (argmaxStep n f) b ≤ j) := by
  induction l with
  | nil =>
      intro b _ _
      exact ⟨le_refl _, fun j hj => absurd hj (List.not_mem_nil j),
        fun _ => rfl, fun j hj => absurd hj (List.not_mem_nil j)⟩
  | cons x xs ih =>
      intro b hpair hb
      have hxxs : ∀ j ∈ xs, x < j := fun j hj => (List.pairwise_cons.mp hpair).1 j hj
      have hpxs : xs.Pairwise (· < ·) := (List.pairwise_cons.mp hpair).2
      have hbx : b < x := hb x (List.mem_cons_self x xs)
      have hfold : (x :: xs).foldl (argmaxStep n f) b
          = xs.foldl (argmaxStep n f) (argmaxStep n f b x) := rfl
      by_cases hlt : f b < f x
      · have hbx' : argmaxStep n f b x = x := if_pos hlt
        obtain ⟨ih1, ih2, ih3, ih4⟩ := ih x hpxs hxxs
        rw [hfold, hbx']
        refine ⟨le_trans (le_of_lt hlt) ih1, ?_, ?_, ?_⟩
        · intro j hj
          rcases List.mem_cons.mp hj with h | h
          · rw [h]; exact ih1
          · exact ih2 j h
        · intro heq
          have hcon : f b < f (xs.foldl (argmaxStep n f) x) :=
            lt_of_lt_of_le hlt ih1
          rw [heq] at hcon
          exact absurd hcon (lt_irrefl _)
        · intro j hj heq
          rcases List.mem_cons.mp hj with h | h
          · have heqx : f (xs.foldl (argmaxStep n f) x) = f x := by rw [heq, h]
            rw [h, ih3 heqx]
          · exact ih4 j h heq
      · have hbx' : argmaxStep n f b x = b := if_neg hlt
        obtain ⟨ih1, ih2, ih3, ih4⟩ :=
          ih b hpxs (fun j hj => hb j (List.mem_cons_of_mem x hj))
        rw [hfold, hbx']
        refine ⟨ih1, ?_, ih3, ?_⟩
        · intro j hj
          rcases List.mem_cons.mp hj with h | h
          · rw [h]; exact le_trans (not_lt.mp hlt) ih1
          · exact ih2 j h
        · intro j hj heq
          rcases List.mem_cons.mp hj with h | h
          · have h2 : f (xs.foldl (argmaxStep n f) b) ≤ f b := by
              rw [heq, h]; exact not_lt.mp hlt
            have h4 : xs.foldl (argmaxStep n f) b = b :=
              ih3 (le_antisymm h2 ih1)
            rw [h, h4]
            exact le_of_lt hbx
          · exact ih4 j h heq

theorem npArgmax_spec (n : ℕ) (f : Fin (n+1) → ℚ) :
    (∀ k, f k ≤ f (npArgmax n f))
    ∧ (∀ k, f (npArgmax n f) = f k → npArgmax n f ≤ k) := by
  have hstep : argmaxStep (n+1) f 0 0 = 0 := if_neg (lt_irrefl _)
  have hrw : npArgmax n f
      = ((List.finRange n).map Fin.succ).foldl (argmaxStep (n+1) f) 0 := by
    rw [npArgmax, List.finRange_succ_eq_map, List.foldl_cons, hstep]
  have htpair : ((List.finRange n).map Fin.succ).Pairwise (· < ·) :=
    List.Pairwise.map Fin.succ (fun a b h => Fin.succ_lt_succ_iff.mpr h)
      (List.pairwise_lt_finRange n)
  have hb : ∀ j ∈ (List.finRange n).map Fin.succ, (0 : Fin (n+1)) < j := by
    intro j hj
    obtain ⟨a, -, rfl⟩ := List.mem_map.mp hj
    exact Fin.succ_pos a
  obtain ⟨h1, h2, h3, h4⟩ :=
    argmax_foldl_spec (n+1) f ((List.finRange n).map Fin.succ) 0 htpair hb
  have hcover : ∀ k : Fin (n+1), k = 0 ∨ k ∈ (List.finRange n).map Fin.succ := by
    intro k
    induction k using Fin.cases with
    | zero => exact Or.inl rfl
    | succ a => exact Or.inr (List.mem_map.mpr ⟨a, List.mem_finRange a, rfl⟩)
  constructor
  · intro k
    rcases hcover k with h | h
    · rw [h, hrw]; exact h1
    · rw [hrw]; exact h2 k h
  · intro k heq
    rcases hcover k with h | h
    · rw [hrw] at heq ⊢
      rw [h] at heq
      rw [h3 heq, h]
    · rw [hrw] at heq ⊢
      exact h4 k h heq

/-- C10: per iteration, the cluster assignment of point `i` is the argmax over
`k` of `R[i,k] + A[i,k]` (`r_s_sum_array = r_array[niter] + a_array[niter]`,
`np.argmax(..., axis=1)` in temp.py lines 129-134), and ties are resolved to
the lowest index because `np.argmax` keeps the first maximum. -/
theorem C10_assignment (n : ℕ) (r_t a_t : Mat (n+1)) (i : Fin (n+1)) :
    (∀ k : Fin (n+1), r_t i k + a_t i k
        ≤ r_t i (npArgmax n (fun k => r_t i k + a_t i k))
          + a_t i (npArgmax n (fun k => r_t i k + a_t i k)))
    ∧ (∀ k : Fin (n+1),
        r_t i (npArgmax n (fun k => r_t i k + a_t i k))
            + a_t i (npArgmax n (fun k => r_t i k + a_t i k))
          = r_t i k + a_t i k
        → npArgmax n (fun k => r_t i k + a_t i k) ≤ k) :=
  npArgmax_spec n (fun k => r_t i k + a_t i k)

/-! ### The convergence tracker of the main loop -/

/-- Model of `np.where(np.argmax(...) == np.array(range(n)))` (temp.py lines
135-137):
the ascending list of indices whose assigned label is their own index. -/
def exemplarsOf (clusters : List ℕ) : List ℕ :=
  (List.range clusters.length).filter (fun i => clusters.getD i 0 = i)

/-- The body of the loop over `niter in range(1, iterations)` of `afprop_vec2`
(temp.py lines 114-182), abstracted over the per-iteration assignment
`assign`: record the stability flag for the current iteration (comparison with
the previous iteration's assignment, initially the zero vector), fire
convergence when the previous `w` flags are all set (`niter > w` and
`np.all(iter_stability[niter-w : niter] == 1)`), returning
`(clusters, exemplars, len(np.unique(clusters)), niter+1)`; otherwise advance.
`fuel` counts the remaining loop iterations; when it runs out the Python
function falls off the loop and implicitly returns `None`. -/
def trackerAux (assign : ℕ → List ℕ) (w : ℕ) :
    ℕ → ℕ → List ℕ → (ℕ → Bool) → Option (List ℕ × List ℕ × ℕ × ℕ)
  | 0, _, _, _ => none
  | fuel + 1, niter, clusters_prev, iter_stability =>
      let clusters := assign niter
      let stability' : ℕ → Bool :=
        fun t => if t = niter then decide (clusters = clusters_prev)
          else iter_stability t
      if w < niter ∧ ∀ t ∈ List.range' (niter - w) w, stability' t = true then
        some (clusters, exemplarsOf clusters, clusters.dedup.length, niter + 1)
      else
        trackerAux assign w fuel (niter + 1) clusters stability'

/-- The whole loop of `afprop_vec2`: `clusters_prev` starts as `np.zeros`,
all stability flags start clear, and `niter` runs over
`range(1, iterations)` — `iterations - 1` passes. -/
def trackerRun (n : ℕ) (assign : ℕ → List ℕ) (iterations w : ℕ) :
    Option (List ℕ × List ℕ × ℕ × ℕ) :=
  trackerAux assign w (iterations - 1) 1 (List.replicate n 0) (fun _ => false)

theorem trackerAux_conv (n k w : ℕ) (v : List ℕ) (assign : ℕ → List ℕ)
    (hk : 1 ≤ k) (hw : 1 ≤ w)
    (hfix : ∀ t, k ≤ t → assign t = v)
    (hpre : ∀ t, 1 ≤ t → t ≤ k →
      assign t ≠ (if t = 1 then List.replicate n 0 else assign (t - 1))) :
    ∀ fuel niter flags,
      1 ≤ niter → niter ≤ k + w + 1 → k + w + 1 - niter < fuel →
      (∀ t, flags t = true ↔ (k + 1 ≤ t ∧ t < niter)) →
      trackerAux assign w fuel niter
        (if niter = 1 then List.replicate n 0 else assign (niter - 1)) flags
        = some (v, exemplarsOf v, v.dedup.length, k + w + 2) := by
  intro fuel
  induction fuel with
  | zero =>
      intro niter flags h1 h2 h3 _
      omega
  | succ fu ih =>
      intro niter flags h1 h2 h3 hflags
      have hflag' : ∀ t,
          (if t = niter
            then decide (assign niter
              = (if niter = 1 then List.replicate n 0 else assign (niter - 1)))
            else flags t) = true
          ↔ (k + 1 ≤ t ∧ t < niter + 1) := by
        intro t
        by_cases ht : t = niter
        · rw [if_pos ht]
          by_cases hnk : niter ≤ k
          · have hne := hpre niter h1 hnk
            simp only [decide_eq_true_eq]
            constructor
            · intro hdec; exact absurd hdec hne
            · intro hcon; omega
          · have h2' : niter ≠ 1 := by omega
            rw [if_neg h2', hfix niter (by omega), hfix (niter - 1) (by omega)]
            simp only [decide_eq_true_eq]
            exact iff_of_true trivial (by omega)
        · rw [if_neg ht, hflags t]
          omega
      rw [trackerAux]
      by_cases hfire : niter = k + w + 1
      · subst hfire
        rw [if_pos]
        · rw [hfix (k + w + 1) (by omega)]
        · refine ⟨by omega, ?_⟩
          intro t ht
          obtain ⟨i, hi, rfl⟩ := List.mem_range'.mp ht
          exact (hflag' _).mpr (by omega)
      · rw [if_neg]
        · have hprev : (if niter + 1 = 1 then List.replicate n 0
              else assign (niter + 1 - 1)) = assign niter := by
            rw [if_neg (by omega), Nat.add_sub_cancel]
          have hrec := ih (niter + 1)
            (fun t => if t = niter
              then decide (assign niter
                = (if niter = 1 then List.replicate n 0 else assign (niter - 1)))
              else flags t)
            (by omega) (by omega) (by omega) hflag'
          rw [hprev] at hrec
          exact hrec
        · rintro ⟨hwn, hall⟩
          have hmem : niter - w ∈ List.range' (niter - w) w :=
            List.mem_range'.mpr ⟨0, by omega, by omega⟩
          have := (hflag' (niter - w)).mp (hall _ hmem)
          omega

/-- C6 (amended): the loop records a stability flag per iteration (iteration 1
is compared against the zero-initialised tracker vector), fires at the first
iteration `t > w` whose PREVIOUS `w` flags — iterations `t-w` through `t-1`,
not including `t` itself — are all set, and therefore, when the assignment is
fixed from iteration `k` onward (and unstable before), it fires at iteration
`k + w + 1` and reports `final_iter = niter + 1 = k + w + 2`, not `k + w`. -/
theorem C6_convergence (n k w iterations : ℕ) (v : List ℕ)
    (assign : ℕ → List ℕ)
    (hk : 1 ≤ k) (hw : 1 ≤ w) (hiter : k + w + 2 ≤ iterations)
    (hfix : ∀ t, k ≤ t → assign t = v)
    (hpre : ∀ t, 1 ≤ t → t ≤ k →
      assign t ≠ (if t = 1 then List.replicate n 0 else assign (t - 1))) :
    trackerRun n assign iterations w
      = some (v, exemplarsOf v, v.dedup.length, k + w + 2) := by
  rw [trackerRun]
  have h := trackerAux_conv n k w v assign hk hw hfix hpre (iterations - 1) 1
    (fun _ => false) (le_refl 1) (by omega) (by omega)
    (by intro t; simp; omega)
  simpa using h

theorem trackerAux_none (n w : ℕ) (assign : ℕ → List ℕ) (hw : 1 ≤ w)
    (hnostab : ∀ t, 1 ≤ t →
      assign t ≠ (if t = 1 then List.replicate n 0 else assign (t - 1))) :
    ∀ fuel niter flags, 1 ≤ niter → (∀ t, flags t = false) →
      trackerAux assign w fuel niter
        (if niter = 1 then List.replicate n 0 else assign (niter - 1)) flags
        = none := by
  intro fuel
  induction fuel with
  | zero => intro niter flags _ _; rfl
  | succ fu ih =>
      intro niter flags h1 hflags
      have hflag' : ∀ t,
          (if t = niter
            then decide (assign niter
              = (if niter = 1 then List.replicate n 0 else assign (niter - 1)))
            else flags t) = false := by
        intro t
        by_cases ht : t = niter
        · rw [if_pos ht]
          exact decide_eq_false (hnostab niter h1)
        · rw [if_neg ht]
          exact hflags t
      rw [trackerAux]
      rw [if_neg]
      · have hprev : (if niter + 1 = 1 then List.replicate n 0
            else assign (niter + 1 - 1)) = assign niter := by
          rw [if_neg (by omega), Nat.add_sub_cancel]
        have hrec := ih (niter + 1)
          (fun t => if t = niter
            then decide (assign niter
              = (if niter = 1 then List.replicate n 0 else assign (niter - 1)))
            else flags t)
          (by omega) hflag'
        rw [hprev] at hrec
        exact hrec
      · rintro ⟨hwn, hall⟩
        have hmem : niter - w ∈ List.range' (niter - w) w :=
          List.mem_range'.mpr ⟨0, by omega, by omega⟩
        have h2 := hall _ hmem
        simp only [hflag' (niter - w)] at h2
        exact Bool.false_ne_true h2

/-- C7 (amended): when no iteration's assignment ever matches the previous
one, the loop falls through `range(1, iterations)` and the function returns
`None` — the exhausted run yields no result value at all (the source merely
prints "Stability not acheived."), rather than an explicit result variant
carrying the final labels and exemplars. -/
theorem C7_exhaustion (n iterations w : ℕ) (assign : ℕ → List ℕ)
    (hw : 1 ≤ w)
    (hnostab : ∀ t, 1 ≤ t →
      assign t ≠ (if t = 1 then List.replicate n 0 else assign (t - 1))) :
    trackerRun n assign iterations w = none := by
  rw [trackerRun]
  have h := trackerAux_none n w assign hw hnostab (iterations - 1) 1
    (fun _ => false) (le_refl 1) (fun _ => rfl)
  simpa using h

theorem trackerAux_extract (assign : ℕ → List ℕ) (w : ℕ) :
    ∀ fuel niter prev flags (c ex : List ℕ) (m f : ℕ),
      trackerAux assign w fuel niter prev flags = some (c, ex, m, f) →
      ex = exemplarsOf c ∧ m = c.dedup.length := by
  intro fuel
  induction fuel with
  | zero =>
      intro niter prev flags c ex m f h
      exact absurd h (by simp [trackerAux])
  | succ fu ih =>
      intro niter prev flags c ex m f h
      rw [trackerAux] at h
      split at h
      · simp only [Option.some.injEq, Prod.mk.injEq] at h
        obtain ⟨rfl, rfl, rfl, rfl⟩ := h
        exact ⟨rfl, rfl⟩
      · exact ih _ _ _ _ _ _ _ h

/-- C9 (amended): every result the loop returns carries exactly
`exemplars = [i : clusters[i] == i]` and
`num_clusters = len(np.unique(clusters))`, the number of DISTINCT labels —
which the code never reconciles with the number of self-selected exemplars. -/
theorem C9_extraction (n : ℕ) (assign : ℕ → List ℕ) (iterations w : ℕ)
    (c ex : List ℕ) (m f : ℕ)
    (h : trackerRun n assign iterations w = some (c, ex, m, f)) :
    ex = exemplarsOf c ∧ m = c.dedup.length :=
  trackerAux_extract assign w (iterations - 1) 1 (List.replicate n 0)
    (fun _ => false) c ex m f h

/-! ### The full message-passing pipeline -/

/-- One loop iteration's matrix updates (temp.py lines 123-127): the new
availability matrix from the previous responsibilities, then the new
responsibility matrix from those fresh availabilities. -/
def stepRA (n : ℕ) (s_matrix : Mat n) (damp_c : ℚ) :
    Mat n × Mat n → Mat n × Mat n :=
  fun ra =>
    let a_t := a_array_update n ra.1 ra.2 damp_c
    (r_array_update n a_t s_matrix ra.1 damp_c, a_t)

/-- The per-iteration hard assignment as a label list,
`np.argmax(r_array[niter] + a_array[niter], axis=1)` (temp.py line 129-134). -/
def clustersAt (n : ℕ) (ra : Mat (n+1) × Mat (n+1)) : List ℕ :=
  (List.finRange (n+1)).map
    (fun i => (npArgmax n (fun k => ra.1 i k + ra.2 i k)).val)

/-- Modelled from the spec: `afprop_vec2` (temp.py lines 92-99) builds its
similarity matrix through `create_s_metric_matrix` and `create_s_matrix`,
which are defined nowhere in the repository; spec section 4.1 specifies the
builder precisely as the behaviour of `calc_similarity_matrix`, which this
model uses.  Everything else is translated from temp.py: `r_array[0]` from
`init_r_array`, `a_array[0]` zero, the loop updating both matrices through
`a_array_update` / `r_array_update` and feeding each iteration's argmax
assignment to the convergence tracker. -/
def afpropLoop (n d : ℕ) (pts : Fin (n+1) → Fin d → ℚ) (mode : ℤ)
    (iterations w : ℕ) (damp_c : ℚ) : Option (List ℕ × List ℕ × ℕ × ℕ) :=
  let s_matrix := calc_similarity_matrix (n+1) d pts mode
  trackerRun (n+1)
    (fun t => clustersAt n ((stepRA (n+1) s_matrix damp_c)^[t]
      (init_r_array (n+1) s_matrix, a_array_0 (n+1))))
    iterations w

/-! ### The top-level entry point -/

/-- The unhandled Python exceptions `afprop_vec2` can raise. -/
inductive PyError where
  | valueError : String → PyError
  | nameError : String → PyError
deriving DecidableEq

/-- Function `afprop_vec2` from `temp.py` (lines 68-182).  Parameter validation (lines
76-89) raises `ValueError` in source order; integer-typedness of `iterations`
and `num_stable_iters` is carried by the `ℤ` parameter types.  The first
statement after validation (line 95) calls `create_s_metric_matrix`, an
identifier bound nowhere in the module — `temp.py` defines only
`calc_similarity_matrix`, `init_r_array`, `a_array_update`, `r_array_update`
and `afprop_vec2`, and its imports (`pandas`, `numpy`, `matplotlib.pyplot`,
`cdist`, `logging`) provide no such name — so every call surviving validation
raises `NameError` there, before any matrix or loop work. -/
def afprop_vec2 (n d : ℕ) (mydata : Fin n → Fin d → ℚ)
    (num_cluster_pref iterations : ℤ) (damp_c : ℚ) (num_stable_iters : ℤ) :
    Except PyError (List ℕ × List ℕ × ℕ × ℕ) :=
  if num_cluster_pref ≠ 1 ∧ num_cluster_pref ≠ 2 then
    Except.error (PyError.valueError
      "Enter valid indication (1 or 2) of cluster number preference.")
  else if iterations < 1 then
    Except.error (PyError.valueError "Enter a valid number of iterations.")
  else if damp_c ≤ 0 ∨ 1 < damp_c then
    Except.error (PyError.valueError "Enter a valid damping constant.")
  else if num_stable_iters < 1 ∨ iterations < num_stable_iters then
    Except.error (PyError.valueError
      "Enter a valid number of iterations to check for stability.")
  else
    Except.error (PyError.nameError "create_s_metric_matrix")

/-- C1: every parameter combination that passes validation makes
`afprop_vec2` raise the unhandled `NameError` for `create_s_metric_matrix`
before any message-passing iteration; no input ever yields a clustering
result. -/
theorem C1_crash (n d : ℕ) (mydata : Fin n → Fin d → ℚ)
    (num_cluster_pref iterations : ℤ) (damp_c : ℚ) (num_stable_iters : ℤ)
    (hpref : num_cluster_pref = 1 ∨ num_cluster_pref = 2)
    (hiter : 1 ≤ iterations) (hd0 : 0 < damp_c) (hd1 : damp_c ≤ 1)
    (hs1 : 1 ≤ num_stable_iters) (hs2 : num_stable_iters ≤ iterations) :
    afprop_vec2 n d mydata num_cluster_pref iterations damp_c num_stable_iters
      = Except.error (PyError.nameError "create_s_metric_matrix")
    ∧ ∀ res, afprop_vec2 n d mydata num_cluster_pref iterations damp_c
        num_stable_iters ≠ Except.ok res := by
  have h1 : ¬(num_cluster_pref ≠ 1 ∧ num_cluster_pref ≠ 2) := by tauto
  have h2 : ¬(iterations < 1) := by omega
  have h3 : ¬(damp_c ≤ 0 ∨ 1 < damp_c) := by
    push_neg
    exact ⟨hd0, hd1⟩
  have h4 : ¬(num_stable_iters < 1 ∨ iterations < num_stable_iters) := by omega
  have hmain : afprop_vec2 n d mydata num_cluster_pref iterations damp_c
      num_stable_iters
      = Except.error (PyError.nameError "create_s_metric_matrix") := by
    rw [afprop_vec2, if_neg h1, if_neg h2, if_neg h3, if_neg h4]
  refine ⟨hmain, ?_⟩
  intro res hok
  rw [hmain] at hok
  exact Except.noConfusion hok

/-- C8: `afprop_vec2` fails with `ValueError` (the source's
`InvalidParameter`) exactly when the preference mode is neither 1 nor 2, or
the iteration count is below 1, or the damping constant lies outside
`(0, 1]`, or the stability window is below 1 or exceeds the iteration count;
validation runs before any similarity or message computation. -/
theorem C8_validation (n d : ℕ) (mydata : Fin n → Fin d → ℚ)
    (num_cluster_pref iterations : ℤ) (damp_c : ℚ) (num_stable_iters : ℤ) :
    (∃ msg, afprop_vec2 n d mydata num_cluster_pref iterations damp_c
        num_stable_iters = Except.error (PyError.valueError msg))
      ↔ ((num_cluster_pref ≠ 1 ∧ num_cluster_pref ≠ 2) ∨ iterations < 1
          ∨ damp_c ≤ 0 ∨ 1 < damp_c ∨ num_stable_iters < 1
          ∨ iterations < num_stable_iters) := by
  rw [afprop_vec2]
  split_ifs with h1 h2 h3 h4
  · exact ⟨fun _ => Or.inl h1, fun _ => ⟨_, rfl⟩⟩
  · exact ⟨fun _ => Or.inr (Or.inl h2), fun _ => ⟨_, rfl⟩⟩
  · refine ⟨fun _ => ?_, fun _ => ⟨_, rfl⟩⟩
    rcases h3 with h | h
    · exact Or.inr (Or.inr (Or.inl h))
    · exact Or.inr (Or.inr (Or.inr (Or.inl h)))
  · refine ⟨fun _ => ?_, fun _ => ⟨_, rfl⟩⟩
    rcases h4 with h | h
    · exact Or.inr (Or.inr (Or.inr (Or.inr (Or.inl h))))
    · exact Or.inr (Or.inr (Or.inr (Or.inr (Or.inr h))))
  · constructor
    · rintro ⟨msg, hmsg⟩
      exact absurd hmsg (by simp)
    · intro h
      exfalso
      rcases h with h | h | h | h | h | h
      · exact h1 h
      · exact h2 h
      · exact h3 (Or.inl h)
      · exact h3 (Or.inr h)
      · exact h4 (Or.inl h)
      · exact h4 (Or.inr h)

/-! ### Concrete evaluations

Batteries marks the rational field operations `@[irreducible]`, which keeps
`decide` from evaluating them during elaboration; the kernel itself is free
of that restriction, and restoring the default transparency locally lets the
concrete runs below be checked by `decide`. -/

section ConcreteEvaluations

attribute [local semireducible] Rat.add Rat.sub Rat.mul Rat.inv

/-- Two 1-D points at 0 and 1, exercising the similarity builder. -/
def ptsC2 : Fin 2 → Fin 1 → ℚ := ![![0], ![1]]

/-- Three 1-D points at 0, 1 and 2; the modelled pipeline converges on them
to the degenerate labelling `[0, 0, 1]`. -/
def ptsC9 : Fin 3 → Fin 1 → ℚ := ![![0], ![1], ![2]]

/-- The assignment sequence constantly `[0, 0, 1]`: fixed from iteration 1
(and produced by the actual run on `ptsC9` with mode 2, damping 1/2). -/
def constAssign001 : ℕ → List ℕ := fun _ => [0, 0, 1]

/-- Assignments alternating `[1]`, `[0]`, ..., never matching the previous
iteration. -/
def altAssign : ℕ → List ℕ := fun t => [t % 2]

/-- Concrete matrices exercising the update formulas. -/
def rMatW : Mat 2 := ![![1, -2], ![3, 4]]

def aMatW : Mat 2 := ![![5, 6], ![7, 8]]

def sMatW : Mat 2 := ![![0, -1], ![-1, 0]]

/-- C2 counterexample: for the 1-D points `{0, 1}` in mode 2 the code sets
the diagonal to `np.median` of the whole matrix `[[0,-1],[-1,0]]`, namely
`-1/2`, while the median of the off-diagonal values `[-1, -1]` is `-1`. -/
theorem C2_counterexample :
    calc_similarity_matrix 2 1 ptsC2 2 0 0 = -(1/2)
    ∧ npMedian (offDiagonalEntries 2 1 ptsC2) = -1
    ∧ (-(1/2) : ℚ) ≠ -1 := by decide

theorem C2_witness :
    (0 : Fin 2) ≠ 1
    ∧ calc_similarity_matrix 2 1 ptsC2 1 0 1
        = -(∑ j : Fin 1, (ptsC2 0 j - ptsC2 1 j) ^ 2) :=
  ⟨by decide, (C2_similarity 0 1 ptsC2 1).1 0 1 (by decide)⟩

theorem C3_witness :
    (0 : ℚ) < 1/2 ∧ (1/2 : ℚ) ≤ 1 ∧ (0 : Fin 2) ≠ 1
    ∧ a_array_update 2 rMatW aMatW (1/2) 0 1
        = 1/2 * min 0 (rMatW 1 1
            + ∑ j ∈ Finset.univ \ {(0 : Fin 2), 1}, max 0 (rMatW j 1))
          + (1 - 1/2) * aMatW 0 1 :=
  ⟨by norm_num, by norm_num, by decide,
    (C3_availability 2 rMatW aMatW (1/2) (by norm_num) (by norm_num) 0 1).1
      (by decide)⟩

theorem C4_witness :
    (0 : ℚ) < 1/2 ∧ (1/2 : ℚ) ≤ 1
    ∧ ∃ rm, r_array_update 2 aMatW sMatW rMatW (1/2) 0 1
          = 1/2 * (sMatW 0 1 - rm) + (1 - 1/2) * rMatW 0 1
        ∧ (∃ k' : Fin 2, k' ≠ 1 ∧ rm = sMatW 0 k' + aMatW 0 k')
        ∧ (∀ k' : Fin 2, k' ≠ 1 → sMatW 0 k' + aMatW 0 k' ≤ rm) :=
  ⟨by norm_num, by norm_num,
    C4_responsibility 0 aMatW sMatW rMatW (1/2) (by norm_num) (by norm_num) 0 1⟩

theorem C1_witness :
    afprop_vec2 1 1 (fun _ _ => 0) 1 100 (1/2) 10
      = Except.error (PyError.nameError "create_s_metric_matrix") :=
  (C1_crash 1 1 (fun _ _ => 0) 1 100 (1/2) 10 (Or.inl rfl) (by norm_num)
    (by norm_num) (by norm_num) (by norm_num) (by norm_num)).1

/-- C6 counterexample: the assignment is fixed at `[0,0,1]` from iteration
`k = 1` on (it differs from the zero-initialised comparison vector), yet with
window `w = 1` the loop reports `final_iter = 4`, not `k + w = 2`. -/
theorem C6_counterexample :
    trackerRun 3 constAssign001 20 1 = some ([0, 0, 1], [0], 2, 4)
    ∧ constAssign001 1 = [0, 0, 1]
    ∧ List.replicate 3 0 ≠ constAssign001 1
    ∧ (4 : ℕ) ≠ 1 + 1 := by decide

theorem C6_witness :
    trackerRun 3 constAssign001 20 1
      = some ([0, 0, 1], exemplarsOf [0, 0, 1],
          ([0, 0, 1] : List ℕ).dedup.length, 1 + 1 + 2) :=
  C6_convergence 3 1 1 20 [0, 0, 1] constAssign001 (le_refl 1) (le_refl 1)
    (by omega) (fun t _ => rfl)
    (by
      intro t h1 h2
      have ht : t = 1 := by omega
      subst ht
      decide)

/-- C7 counterexample: a run whose assignments never repeat exhausts the
iteration budget and the loop returns `None` — no exhausted-result variant,
no labels, no exemplars. -/
theorem C7_counterexample :
    trackerRun 1 altAssign 10 3 = none := by decide

theorem C7_witness : trackerRun 1 altAssign 15 2 = none :=
  C7_exhaustion 1 15 2 altAssign (by omega)
    (by
      intro t h1
      by_cases ht : t = 1
      · subst ht; decide
      · rw [if_neg ht]
        simp only [altAssign, ne_eq, List.cons.injEq, and_true]
        omega)

set_option maxRecDepth 100000 in
set_option maxHeartbeats 1000000 in
/-- C9 counterexample: on the three 1-D points `0, 1, 2` with mode 2,
damping 1/2 and window 1, the modelled run converges to labels `[0, 0, 1]`
and reports `num_clusters = 2`, while only point 0 selects itself — so
`clusterCount` differs from the number of self-selected exemplars and the
label 1 of point 2 is not in the exemplar list. -/
theorem C9_counterexample :
    afpropLoop 2 1 ptsC9 2 20 1 (1/2) = some ([0, 0, 1], [0], 2, 4)
    ∧ (2 : ℕ) ≠ (exemplarsOf [0, 0, 1]).length
    ∧ (1 : ℕ) ∉ exemplarsOf [0, 0, 1] := by decide

theorem C9_witness :
    ([0] : List ℕ) = exemplarsOf [0, 0, 1]
    ∧ (2 : ℕ) = ([0, 0, 1] : List ℕ).dedup.length :=
  C9_extraction 3 constAssign001 20 1 [0, 0, 1] [0] 2 4 (by decide)

theorem C10_witness :
    (a_array_0 2 0 1 + a_array_0 2 0 1
        ≤ a_array_0 2 0 (npArgmax 1 (fun k => a_array_0 2 0 k + a_array_0 2 0 k))
          + a_array_0 2 0 (npArgmax 1 (fun k => a_array_0 2 0 k + a_array_0 2 0 k)))
    ∧ npArgmax 1 (fun k => a_array_0 2 0 k + a_array_0 2 0 k) ≤ 1 :=
  ⟨(C10_assignment 1 (a_array_0 2) (a_array_0 2) 0).1 1,
    (C10_assignment 1 (a_array_0 2) (a_array_0 2) 0).2 1 (by decide)⟩

end ConcreteEvaluations

end Affprop
